import Mathlib

/-!
Shallow embedding of `src/shogun/distributions/kernel_exp_family/impl/Nystrom.cpp`
(the Nystrom approximation of the kernel exponential family density estimator).

Modelling conventions:
* `float64_t` values are modelled as `ℚ` (exact arithmetic; the claims under
  scrutiny are about the algebraic structure of the computations, not about
  floating-point rounding).
* `index_t` loop counters and indices are modelled as `ℕ`.
* The kernel derivative oracle (`kernel::Base`, external to this file in the
  source) is an abstract structure of functions: each `*_component` method is a
  field returning a rational.  Vector/matrix-valued oracle methods are modelled
  entrywise (the extra trailing arguments select the entry).
* Eigen expression templates (`Map`, `block`, `segment`, `squaredNorm`,
  matrix products) are modelled by explicit `Finset.range` sums.
* The eigendecomposition performed inside `pinv_self_adjoint` is delegated to
  Eigen's `SelfAdjointEigenSolver`, which is external; it is modelled by taking
  the produced eigenvalues `s` and eigenvector matrix `V` as inputs of the
  remainder of the function, which is embedded faithfully.
* The random permutation produced by `CMath::permute` inside
  `sub_sample_rkhs_basis` is external (RNG); it is modelled as an input list,
  constrained in theorems to be a permutation of `List.range (N*D)`.
-/

namespace KernelExpFamilyImpl

open Matrix

/-- Abstract kernel derivative oracle, one field per `m_kernel->...` method the
Nystrom implementation calls.  Sample indices and coordinate indices are `ℕ`.
For the matrix-valued methods `dx_i_dx_i_dx_j`, `dx_i_dx_j`,
`dx_i_dx_j_dx_k_dx_k_row_sum` and `dx_i_dx_j_dx_k_dot_vec` the final `ℕ`
arguments select the entry of the returned vector/matrix. -/
structure Kernel where
  dx_dx_dy_dy_component : ℕ → ℕ → ℕ → ℕ → ℚ
  dx_dx_dy_component : ℕ → ℕ → ℕ → ℕ → ℚ
  dx_dy_component : ℕ → ℕ → ℕ → ℕ → ℚ
  dx_dx_component : ℕ → ℕ → ℕ → ℚ
  dx_component : ℕ → ℕ → ℕ → ℚ
  dx_i_dx_i_dx_j_component : ℕ → ℕ → ℕ → ℕ → ℚ
  dx_i_dx_j_component : ℕ → ℕ → ℕ → ℕ → ℚ
  dx_i_dx_j_dx_k_dx_k_row_sum : ℕ → ℕ → ℕ → ℕ → ℚ
  dx_i_dx_j_dx_k_dx_k_row_sum_component : ℕ → ℕ → ℕ → ℕ → ℚ
  dx_i_dx_j_dx_k_dot_vec : ℕ → ℕ → (ℕ → ℚ) → ℕ → ℕ → ℚ
  dx_i_dx_j_dx_k_dot_vec_component : ℕ → ℕ → (ℕ → ℚ) → ℕ → ℕ → ℚ

/-- State of a `Nystrom` estimator: `N = get_num_lhs()` (sample count),
`D = get_num_dimensions()` (coordinate count), the kernel oracle, the
regulariser `m_lambda`, the stored basis indices `m_rkhs_basis_inds`, and the
coefficient vector `m_alpha_beta` (written by the fitting step, read by the
evaluators).  The data matrix itself is reachable only through the kernel
oracle and therefore does not appear as a separate field. -/
structure Nystrom where
  N : ℕ
  D : ℕ
  m_kernel : Kernel
  m_lambda : ℚ
  m_rkhs_basis_inds : List ℕ
  m_alpha_beta : ℕ → ℚ

/-- Source `Nystrom::idx_to_ai(idx, D)`: flat index to (sample, coordinate). -/
def idx_to_ai (idx D : ℕ) : ℕ × ℕ := (idx / D, idx % D)

/-- Source `Nystrom::get_num_rkhs_basis()`: `m_rkhs_basis_inds.vlen`. -/
def Nystrom.get_num_rkhs_basis (e : Nystrom) : ℕ := e.m_rkhs_basis_inds.length

/-- The `(a, i)` pair `idx_to_ai(m_rkhs_basis_inds[idx])` used throughout the
source for the `idx`-th basis element. -/
def Nystrom.basis_ai (e : Nystrom) (idx : ℕ) : ℕ × ℕ :=
  idx_to_ai (e.m_rkhs_basis_inds.getD idx 0) e.D

/-- Source `Nystrom::compute_xi_norm_2`: triple sum of `dx_dx_dy_dy_component`
over basis entries, samples and coordinates, then divided by `N*N`. -/
def Nystrom.compute_xi_norm_2 (e : Nystrom) : ℚ :=
  (∑ idx ∈ Finset.range e.get_num_rkhs_basis, ∑ idx_b ∈ Finset.range e.N,
      ∑ j ∈ Finset.range e.D,
      e.m_kernel.dx_dx_dy_dy_component (e.basis_ai idx).1 idx_b (e.basis_ai idx).2 j)
    / (e.N * e.N)

/-- Source `Nystrom::compute_h`: entry `idx` of the vector `h`; the double sum
over samples and coordinates of `dx_dx_dy_component`, divided by `N` at the
end (`eigen_h /= N`). -/
def Nystrom.compute_h (e : Nystrom) (idx : ℕ) : ℚ :=
  (∑ idx_a ∈ Finset.range e.N, ∑ i ∈ Finset.range e.D,
      e.m_kernel.dx_dx_dy_component idx_a (e.basis_ai idx).1 i (e.basis_ai idx).2)
    / e.N

/-- Source `build_system` intermediate `col_sub_sampled_hessian` (called `G` in
the specification): entry `(row_idx, idx)` is
`dx_dy_component(ai.first, bj.first, ai.second, bj.second)` with
`ai = idx_to_ai(m_rkhs_basis_inds[idx])` and `bj = idx_to_ai(row_idx)`. -/
def Nystrom.col_sub_sampled_hessian (e : Nystrom) (row_idx idx : ℕ) : ℚ :=
  e.m_kernel.dx_dy_component (e.basis_ai idx).1 (idx_to_ai row_idx e.D).1
    (e.basis_ai idx).2 (idx_to_ai row_idx e.D).2

/-- Source `build_system` intermediate `sub_sampled_hessian` (called `Ĝ` in the
specification): row sub-sampling of `col_sub_sampled_hessian` at the basis
indices. -/
def Nystrom.sub_sampled_hessian (e : Nystrom) (row_idx idx : ℕ) : ℚ :=
  e.col_sub_sampled_hessian (e.m_rkhs_basis_inds.getD row_idx 0) idx

/-- Source `Nystrom::build_system`, matrix part, entrywise.  Mirrors the four
assembly statements of the source: `A(0,0)`, the inner `m×m` block
`Gᵀ G / N + λ Ĝ`, the first column `Ĝ h / N + λ h`, and the first row copied
from the first column (`A(0, idx+1) = A(idx+1, 0)`). -/
def Nystrom.build_system_A (e : Nystrom) (r c : ℕ) : ℚ :=
  if r = 0 then
    if c = 0 then
      (∑ k ∈ Finset.range e.get_num_rkhs_basis, e.compute_h k ^ 2) / e.N
        + e.m_lambda * e.compute_xi_norm_2
    else
      (∑ k ∈ Finset.range e.get_num_rkhs_basis,
          e.sub_sampled_hessian (c - 1) k * e.compute_h k) / e.N
        + e.m_lambda * e.compute_h (c - 1)
  else if c = 0 then
    (∑ k ∈ Finset.range e.get_num_rkhs_basis,
        e.sub_sampled_hessian (r - 1) k * e.compute_h k) / e.N
      + e.m_lambda * e.compute_h (r - 1)
  else
    (∑ q ∈ Finset.range (e.N * e.D),
        e.col_sub_sampled_hessian q (r - 1) * e.col_sub_sampled_hessian q (c - 1)) / e.N
      + e.m_lambda * e.sub_sampled_hessian (r - 1) (c - 1)

/-- Source `Nystrom::build_system`, right-hand-side part:
`b[0] = -xi_norm_2`, `b.segment(1, m) = -h`. -/
def Nystrom.build_system_b (e : Nystrom) (r : ℕ) : ℚ :=
  if r = 0 then -e.compute_xi_norm_2 else -e.compute_h (r - 1)

/-- Source `Nystrom::log_pdf(idx_test)`.  Note the source performs no range
check on `idx_test`; the function is total in it, exactly as the C++ runs the
loop for any value passed in. -/
def Nystrom.log_pdf (e : Nystrom) (idx_test : ℕ) : ℚ :=
  (e.m_alpha_beta 0) *
      (∑ idx ∈ Finset.range e.get_num_rkhs_basis,
        e.m_kernel.dx_dx_component (e.basis_ai idx).1 idx_test (e.basis_ai idx).2) / e.N
    + ∑ idx ∈ Finset.range e.get_num_rkhs_basis,
        -(e.m_kernel.dx_component (e.basis_ai idx).1 idx_test (e.basis_ai idx).2
            * e.m_alpha_beta (1 + idx))

/-- Source `Nystrom::grad(idx_test)`, entry `j` of the returned `D`-vector.
`xi_grad` accumulates `-=`, is then scaled by `m_alpha_beta[0]/N` and the
`beta_sum_grad` accumulator is added. -/
def Nystrom.grad (e : Nystrom) (idx_test j : ℕ) : ℚ :=
  (∑ idx ∈ Finset.range e.get_num_rkhs_basis,
      -(e.m_kernel.dx_i_dx_i_dx_j_component (e.basis_ai idx).1 idx_test
          (e.basis_ai idx).2 j))
    * (e.m_alpha_beta 0 / e.N)
  + ∑ idx ∈ Finset.range e.get_num_rkhs_basis,
      e.m_kernel.dx_i_dx_j_component (e.basis_ai idx).1 idx_test (e.basis_ai idx).2 j
        * e.m_alpha_beta (1 + idx)

/-- Source `hessian`/`hessian_diag` intermediate `beta_full_fake`: the length
`N*D` vector that is zero everywhere except
`beta_full_fake[ai.first*D + ai.second] = m_alpha_beta[1+idx]` for each basis
entry, with later loop iterations overwriting earlier ones on index clashes. -/
def Nystrom.beta_full_fake (e : Nystrom) : ℕ → ℚ :=
  (List.range e.get_num_rkhs_basis).foldl
    (fun f idx =>
      Function.update f ((e.basis_ai idx).1 * e.D + (e.basis_ai idx).2)
        (e.m_alpha_beta (1 + idx)))
    (fun _ => 0)

/-- Source `Nystrom::hessian(idx_test)`, entry `(i, j)` of the returned `D×D`
matrix: the `xi` accumulator of `dx_i_dx_j_dx_k_dx_k_row_sum` terms is scaled
by `m_alpha_beta[0]/N`, and the `beta` accumulator of negated
`dx_i_dx_j_dx_k_dot_vec` terms (fed the length-`D` slice of `beta_full_fake`
at offset `idx_a*D`) is added. -/
def Nystrom.hessian (e : Nystrom) (idx_test i j : ℕ) : ℚ :=
  (∑ idx_a ∈ Finset.range e.N,
      e.m_kernel.dx_i_dx_j_dx_k_dx_k_row_sum idx_a idx_test i j)
    * (e.m_alpha_beta 0 / e.N)
  + ∑ idx_a ∈ Finset.range e.N,
      -(e.m_kernel.dx_i_dx_j_dx_k_dot_vec idx_a idx_test
          (fun c => e.beta_full_fake (idx_a * e.D + c)) i j)

/-- Source `Nystrom::hessian_diag(idx_test)`, entry `i` of the returned
`D`-vector: same structure as `hessian` but through the `_component` oracle
methods at `(i, i)` only. -/
def Nystrom.hessian_diag (e : Nystrom) (idx_test i : ℕ) : ℚ :=
  (∑ idx_a ∈ Finset.range e.N,
      e.m_kernel.dx_i_dx_j_dx_k_dx_k_row_sum_component idx_a idx_test i i)
    * (e.m_alpha_beta 0 / e.N)
  + ∑ idx_a ∈ Finset.range e.N,
      -(e.m_kernel.dx_i_dx_j_dx_k_dot_vec_component idx_a idx_test
          (fun c => e.beta_full_fake (idx_a * e.D + c)) i i)

/-- Source `CMath::MACHINE_EPSILON`, the double-precision machine epsilon
`DBL_EPSILON = 2⁻⁵²`, as an exact rational. -/
def MACHINE_EPSILON : ℚ := 1 / 2 ^ 52

/-- Eigen `s.maxCoeff()` on a length-`m` eigenvalue vector (meaningful for
`m > 0`, which the source guarantees since `A` is `(m+1)×(m+1)`). -/
def maxCoeff {m : ℕ} (s : Fin m → ℚ) : ℚ :=
  if h : 0 < m then Finset.univ.sup' ⟨⟨0, h⟩, Finset.mem_univ _⟩ s else 0

/-- Source `pinv_tol` inside `Nystrom::pinv_self_adjoint`:
`CMath::MACHINE_EPSILON * m * s.maxCoeff()`. -/
def pinv_tol {m : ℕ} (s : Fin m → ℚ) : ℚ :=
  MACHINE_EPSILON * m * maxCoeff s

/-- Source `inv_s` loop inside `Nystrom::pinv_self_adjoint`: invert an
eigenvalue exactly when it is strictly above the tolerance, else zero it. -/
def pinv_inv_s {m : ℕ} (s : Fin m → ℚ) : Fin m → ℚ :=
  fun i => if s i > pinv_tol s then 1 / s i else 0

/-- Source `Nystrom::pinv_self_adjoint` after the eigendecomposition: the
eigensolver (external, Eigen `SelfAdjointEigenSolver`) produced eigenvalues
`s` and eigenvectors `V`; the function returns `V * inv_s.asDiagonal() * Vᵀ`. -/
def pinv_self_adjoint {m : ℕ} (V : Matrix (Fin m) (Fin m) ℚ) (s : Fin m → ℚ) :
    Matrix (Fin m) (Fin m) ℚ :=
  V * Matrix.diagonal (pinv_inv_s s) * Vᵀ

/-- Source explicit-basis constructor
`Nystrom::Nystrom(data, kernel, lambda, rkhs_basis_inds)`: its entire body is
`m_rkhs_basis_inds = rkhs_basis_inds;` (plus a log line); the coefficient
vector does not exist yet (modelled as all zeroes). -/
def Nystrom.construct_explicit (N D : ℕ) (kernel : Kernel) (lambda : ℚ)
    (rkhs_basis_inds : List ℕ) : Nystrom :=
  { N := N, D := D, m_kernel := kernel, m_lambda := lambda,
    m_rkhs_basis_inds := rkhs_basis_inds, m_alpha_beta := fun _ => 0 }

/-- Source `Nystrom::sub_sample_rkhs_basis(num_rkhs_basis)`: takes the first
`num_rkhs_basis` entries of a uniformly random permutation of
`{0, …, N*D−1}` (the permutation, produced by `CMath::permute`, is passed in
as a parameter here) and sorts them ascending (`CMath::qsort`). -/
def sub_sample_rkhs_basis (permutation : List ℕ) (num_rkhs_basis : ℕ) : List ℕ :=
  List.insertionSort (· ≤ ·) (permutation.take num_rkhs_basis)

/-- Source random-basis constructor
`Nystrom::Nystrom(data, kernel, lambda, num_rkhs_basis)`: stores
`sub_sample_rkhs_basis(num_rkhs_basis)`. -/
def Nystrom.construct_random (N D : ℕ) (kernel : Kernel) (lambda : ℚ)
    (permutation : List ℕ) (num_rkhs_basis : ℕ) : Nystrom :=
  { N := N, D := D, m_kernel := kernel, m_lambda := lambda,
    m_rkhs_basis_inds := sub_sample_rkhs_basis permutation num_rkhs_basis,
    m_alpha_beta := fun _ => 0 }

/-! Concrete fixtures used to instantiate theorems with hypotheses. -/

/-- Concrete kernel oracle used for instantiations: simple polynomial formulas
in the indices.  `dx_dy_component` is symmetric under swapping the sample and
coordinate pairs, as for a genuine symmetric kernel; the `_component` variants
of the Hessian oracles agree with their matrix counterparts. -/
def witnessKernel : Kernel where
  dx_dx_dy_dy_component := fun a b i j => (a : ℚ) + b + i + j
  dx_dx_dy_component := fun a b i j => (a : ℚ) + 2 * b + i + j
  dx_dy_component := fun a b i j => (a : ℚ) * b + (i : ℚ) * j
  dx_dx_component := fun a b i => (a : ℚ) + b + i
  dx_component := fun a b i => (a : ℚ) + b + 2 * i
  dx_i_dx_i_dx_j_component := fun a b i j => (a : ℚ) + b + i + j
  dx_i_dx_j_component := fun a b i j => (a : ℚ) + b + i + j
  dx_i_dx_j_dx_k_dx_k_row_sum := fun a t i j => (a : ℚ) + t + i + j
  dx_i_dx_j_dx_k_dx_k_row_sum_component := fun a t i j => (a : ℚ) + t + i + j
  dx_i_dx_j_dx_k_dot_vec := fun a t v i j => v i + v j + a + t
  dx_i_dx_j_dx_k_dot_vec_component := fun a t v i j => v i + v j + a + t

/-- Concrete estimator used for instantiations: one sample, two coordinates,
basis `J = [1]` (so `m = 1`, `basis_ai 0 = (0, 1)`), coefficients
`θ = (1, 2, 3, …)`. -/
def witnessEstimator : Nystrom where
  N := 1
  D := 2
  m_kernel := witnessKernel
  m_lambda := 1
  m_rkhs_basis_inds := [1]
  m_alpha_beta := fun k => (k : ℚ) + 1

/-- All-zero kernel oracle, used for instantiations where the kernel values
are irrelevant. -/
def zeroKernel : Kernel where
  dx_dx_dy_dy_component := fun _ _ _ _ => 0
  dx_dx_dy_component := fun _ _ _ _ => 0
  dx_dy_component := fun _ _ _ _ => 0
  dx_dx_component := fun _ _ _ => 0
  dx_component := fun _ _ _ => 0
  dx_i_dx_i_dx_j_component := fun _ _ _ _ => 0
  dx_i_dx_j_component := fun _ _ _ _ => 0
  dx_i_dx_j_dx_k_dx_k_row_sum := fun _ _ _ _ => 0
  dx_i_dx_j_dx_k_dx_k_row_sum_component := fun _ _ _ _ => 0
  dx_i_dx_j_dx_k_dot_vec := fun _ _ _ _ _ => 0
  dx_i_dx_j_dx_k_dot_vec_component := fun _ _ _ _ _ => 0

/-! Claims. -/

/-- C4: `compute_xi_norm_2` returns the triple sum (over basis entries `k`,
samples `b`, coordinates `j`) of the fourth-order kernel derivatives
`k_xxyy(a(k), b, i(k), j)`, divided by `N²` (not by `N·m`). -/
theorem compute_xi_norm_2_divides_by_N_squared (e : Nystrom) :
    e.compute_xi_norm_2 =
      (∑ k ∈ Finset.range e.get_num_rkhs_basis, ∑ b ∈ Finset.range e.N,
          ∑ j ∈ Finset.range e.D,
          e.m_kernel.dx_dx_dy_dy_component (e.basis_ai k).1 b (e.basis_ai k).2 j)
        / (e.N : ℚ) ^ 2 := by
  unfold Nystrom.compute_xi_norm_2
  congr 1
  ring

/-- C3 counterexample: the explicit-basis constructor performs no validation
and no sorting.  With `N = 2`, `D = 2` (so `N·D = 4`) and the duplicate list
`J = [2, 2]`, construction succeeds and stores `[2, 2]` verbatim — there is no
`InvalidBasis` failure path in the source constructor (its body is a single
assignment), contradicting the claim that duplicates are rejected and that the
basis is sorted before storage. -/
theorem construct_explicit_accepts_duplicates :
    (Nystrom.construct_explicit 2 2 zeroKernel 1 [2, 2]).m_rkhs_basis_inds
      = [2, 2] := rfl

/-- C3 amended: the explicit-basis constructor stores the user-supplied index
sequence exactly as given — it performs no duplicate, range or emptiness
validation, does not sort, and has no failure path. -/
theorem construct_explicit_stores_verbatim (N D : ℕ) (kernel : Kernel)
    (lambda : ℚ) (J : List ℕ) :
    (Nystrom.construct_explicit N D kernel lambda J).m_rkhs_basis_inds = J := rfl

/-- C5: for a query index `t` in range, `log_pdf t` equals
`θ[0] · (Σ_{k<m} k_xx(a_k, t, i_k)) / N − Σ_{k<m} k_x(a_k, t, i_k) · θ[1+k]`,
with the documented minus sign on the beta term. -/
theorem log_pdf_formula (e : Nystrom) (t : ℕ) (_ht : t < e.N) :
    e.log_pdf t =
      e.m_alpha_beta 0 *
          (∑ k ∈ Finset.range e.get_num_rkhs_basis,
            e.m_kernel.dx_dx_component (e.basis_ai k).1 t (e.basis_ai k).2) / e.N
        - ∑ k ∈ Finset.range e.get_num_rkhs_basis,
            e.m_kernel.dx_component (e.basis_ai k).1 t (e.basis_ai k).2
              * e.m_alpha_beta (1 + k) := by
  unfold Nystrom.log_pdf
  rw [Finset.sum_neg_distrib, sub_eq_add_neg]

/-- C5 witness: `log_pdf_formula` applied to the concrete estimator at the
in-range query index `0`, with the resulting value evaluated. -/
theorem log_pdf_formula_witness : witnessEstimator.log_pdf 0 = -3 := by
  rw [log_pdf_formula witnessEstimator 0 (by decide)]
  norm_num [witnessEstimator, witnessKernel, Nystrom.get_num_rkhs_basis,
    Nystrom.basis_ai, idx_to_ai, Finset.sum_range_one]

/-- C8 counterexample: the evaluators perform no range check.  The concrete
estimator has `N = 1`, and `log_pdf N = log_pdf 1` returns the value `-4`
computed by the usual formula (the out-of-range index is passed straight to
the kernel oracle) — it does not fail with `OutOfRange`; the source `log_pdf`
and `grad` contain no bounds test and no error path. -/
theorem log_pdf_out_of_range_returns_value :
    witnessEstimator.log_pdf witnessEstimator.N = -4 := by
  norm_num [Nystrom.log_pdf, witnessEstimator, witnessKernel,
    Nystrom.get_num_rkhs_basis, Nystrom.basis_ai, idx_to_ai, Finset.sum_range_one]

/-- C8 amended: evaluators do not validate the query index: for every `t ≥ N`,
`log_pdf t` still returns the value of the usual formula at `t` (the index is
forwarded to the kernel oracle unchecked); no `OutOfRange` error exists at
this layer, and likewise `grad`, `hessian` and `hessian_diag` are total in
`t`. -/
theorem log_pdf_no_range_check (e : Nystrom) (t : ℕ) (_ht : e.N ≤ t) :
    e.log_pdf t =
      e.m_alpha_beta 0 *
          (∑ k ∈ Finset.range e.get_num_rkhs_basis,
            e.m_kernel.dx_dx_component (e.basis_ai k).1 t (e.basis_ai k).2) / e.N
        - ∑ k ∈ Finset.range e.get_num_rkhs_basis,
            e.m_kernel.dx_component (e.basis_ai k).1 t (e.basis_ai k).2
              * e.m_alpha_beta (1 + k) := by
  unfold Nystrom.log_pdf
  rw [Finset.sum_neg_distrib, sub_eq_add_neg]

/-- C8 amended witness: `log_pdf_no_range_check` applied at the out-of-range
query index `2` (the concrete estimator has `N = 1`), with the resulting value
evaluated. -/
theorem log_pdf_no_range_check_witness : witnessEstimator.log_pdf 2 = -5 := by
  rw [log_pdf_no_range_check witnessEstimator 2 (by decide)]
  norm_num [witnessEstimator, witnessKernel, Nystrom.get_num_rkhs_basis,
    Nystrom.basis_ai, idx_to_ai, Finset.sum_range_one]

/-- C1: `build_system` produces the `(m+1)×(m+1)` matrix `A` and length-`(m+1)`
vector `b` of the claim, entrywise (`r, c` range over `1..m` for the non-zero
indices): `A[0,0] = ‖h‖²/N + λξ²`, the inner block is `GᵀG/N + λĜ` with
`G[q,c] = k_xy(a_c, b_q, i_c, j_q)` and `Ĝ[r,c] = G[J[r],c]
= k_xy(a_c, a_r, i_c, i_r)`, the first column is `Ĝh/N + λh`, the first row
mirrors the first column, `b[0] = −ξ²`, `b[1:] = −h`, and
`h[k] = (1/N)·Σ_b Σ_j k_xxy(b, a_k, j, i_k)` with `(a_k, i_k)` the codec of
`J[k]`. -/
theorem build_system_assembles_score_matching_system (e : Nystrom) :
    (∀ k, k < e.get_num_rkhs_basis →
      e.compute_h k
        = (∑ b ∈ Finset.range e.N, ∑ j ∈ Finset.range e.D,
            e.m_kernel.dx_dx_dy_component b (e.basis_ai k).1 j (e.basis_ai k).2) / e.N)
  ∧ e.build_system_A 0 0
      = (∑ k ∈ Finset.range e.get_num_rkhs_basis, e.compute_h k ^ 2) / e.N
        + e.m_lambda * e.compute_xi_norm_2
  ∧ (∀ r c, 1 ≤ r → r ≤ e.get_num_rkhs_basis → 1 ≤ c → c ≤ e.get_num_rkhs_basis →
      e.build_system_A r c
        = (∑ q ∈ Finset.range (e.N * e.D),
            e.m_kernel.dx_dy_component (e.basis_ai (r - 1)).1 (idx_to_ai q e.D).1
                (e.basis_ai (r - 1)).2 (idx_to_ai q e.D).2
              * e.m_kernel.dx_dy_component (e.basis_ai (c - 1)).1 (idx_to_ai q e.D).1
                (e.basis_ai (c - 1)).2 (idx_to_ai q e.D).2) / e.N
          + e.m_lambda
            * e.m_kernel.dx_dy_component (e.basis_ai (c - 1)).1 (e.basis_ai (r - 1)).1
                (e.basis_ai (c - 1)).2 (e.basis_ai (r - 1)).2)
  ∧ (∀ r, 1 ≤ r → r ≤ e.get_num_rkhs_basis →
      e.build_system_A r 0
        = (∑ k ∈ Finset.range e.get_num_rkhs_basis,
            e.m_kernel.dx_dy_component (e.basis_ai k).1 (e.basis_ai (r - 1)).1
                (e.basis_ai k).2 (e.basis_ai (r - 1)).2 * e.compute_h k) / e.N
          + e.m_lambda * e.compute_h (r - 1)
      ∧ e.build_system_A 0 r = e.build_system_A r 0)
  ∧ e.build_system_b 0 = -e.compute_xi_norm_2
  ∧ (∀ r, 1 ≤ r → r ≤ e.get_num_rkhs_basis →
      e.build_system_b r = -e.compute_h (r - 1)) := by
  refine ⟨fun k _ => rfl, rfl, ?_, ?_, rfl, ?_⟩
  · intro r c hr _ hc _
    unfold Nystrom.build_system_A
    rw [if_neg (by omega : ¬ r = 0), if_neg (by omega : ¬ c = 0)]
    rfl
  · intro r hr _
    constructor
    · unfold Nystrom.build_system_A
      rw [if_neg (by omega : ¬ r = 0), if_pos rfl]
      rfl
    · unfold Nystrom.build_system_A
      rw [if_pos rfl, if_neg (by omega : ¬ r = 0), if_neg (by omega : ¬ r = 0),
        if_pos rfl]
  · intro r hr _
    unfold Nystrom.build_system_b
    rw [if_neg (by omega : ¬ r = 0)]

/-- C1 witness: the first-column/first-row equations of
`build_system_assembles_score_matching_system` instantiated on the concrete
estimator at `r = c = 1` (its basis has `m = 1`), with all index hypotheses
discharged. -/
theorem build_system_assembles_witness :
    witnessEstimator.build_system_A 1 0
        = (∑ k ∈ Finset.range witnessEstimator.get_num_rkhs_basis,
            witnessEstimator.m_kernel.dx_dy_component (witnessEstimator.basis_ai k).1
                (witnessEstimator.basis_ai 0).1 (witnessEstimator.basis_ai k).2
                (witnessEstimator.basis_ai 0).2 * witnessEstimator.compute_h k)
              / witnessEstimator.N
          + witnessEstimator.m_lambda * witnessEstimator.compute_h 0
      ∧ witnessEstimator.build_system_A 0 1 = witnessEstimator.build_system_A 1 0 :=
  ((build_system_assembles_score_matching_system witnessEstimator).2.2.2.1 1
    (by decide) (by decide))

/-- C6: assuming the kernel Hessian oracle has the argument-swap symmetry of a
genuine symmetric kernel (`k_xy(a,b,i,j) = k_xy(b,a,j,i)`, the validity
condition of the spec), the assembled matrix `A` is exactly symmetric in every
pair of entries — the mirrored first row/column and the inner block
`GᵀG/N + λĜ` alike. -/
theorem build_system_A_symmetric (e : Nystrom)
    (hsym : ∀ a b i j, e.m_kernel.dx_dy_component a b i j
      = e.m_kernel.dx_dy_component b a j i) (r c : ℕ) :
    e.build_system_A r c = e.build_system_A c r := by
  unfold Nystrom.build_system_A
  split_ifs <;>
    first
      | rfl
      | (congr 1
         · congr 1
           exact Finset.sum_congr rfl fun q _ => mul_comm _ _
         · congr 1
           exact hsym _ _ _ _)

/-- C6 witness: `build_system_A_symmetric` on the concrete estimator (whose
`dx_dy_component a b i j = a·b + i·j` satisfies the swap symmetry), at the
entry pair `(0, 1)`. -/
theorem build_system_A_symmetric_witness :
    witnessEstimator.build_system_A 0 1 = witnessEstimator.build_system_A 1 0 :=
  build_system_A_symmetric witnessEstimator
    (fun a b i j => by show (a : ℚ) * b + (i : ℚ) * j = (b : ℚ) * a + (j : ℚ) * i; ring)
    0 1

/-- C7: if the per-component Hessian oracles agree with the matrix oracles on
diagonal entries (the `(i,i)` entry of `dx_i_dx_j_dx_k_dx_k_row_sum` equals
`dx_i_dx_j_dx_k_dx_k_row_sum_component` at `(i,i)`, and likewise for the
`dx_i_dx_j_dx_k_dot_vec` contraction), then `hessian_diag(t)[i]` equals
`hessian(t)[i,i]` for every in-range query index `t` and coordinate `i`. -/
theorem hessian_diag_matches_hessian_diagonal (e : Nystrom) (t i : ℕ)
    (_ht : t < e.N) (_hi : i < e.D)
    (hrow : ∀ a b k, e.m_kernel.dx_i_dx_j_dx_k_dx_k_row_sum a b k k
      = e.m_kernel.dx_i_dx_j_dx_k_dx_k_row_sum_component a b k k)
    (hdot : ∀ a b v k, e.m_kernel.dx_i_dx_j_dx_k_dot_vec a b v k k
      = e.m_kernel.dx_i_dx_j_dx_k_dot_vec_component a b v k k) :
    e.hessian_diag t i = e.hessian t i i := by
  unfold Nystrom.hessian Nystrom.hessian_diag
  congr 1
  · congr 1
    exact Finset.sum_congr rfl fun a _ => (hrow a t i).symm
  · exact Finset.sum_congr rfl fun a _ => by rw [hdot]

/-- C7 witness: `hessian_diag_matches_hessian_diagonal` on the concrete
estimator (whose component oracles are definitionally equal to its matrix
oracles) at `t = 0`, `i = 0`. -/
theorem hessian_diag_matches_hessian_diagonal_witness :
    witnessEstimator.hessian_diag 0 0 = witnessEstimator.hessian 0 0 0 :=
  hessian_diag_matches_hessian_diagonal witnessEstimator 0 0 (by decide) (by decide)
    (fun _ _ _ => rfl) (fun _ _ _ _ => rfl)

/-- C9: for any permutation of `{0,…,N·D−1}` produced by the RNG and any
target size `1 ≤ m ≤ N·D`, the stored basis consists of the first `m` entries
of the permutation sorted ascending: it has length exactly `m`, is strictly
increasing (hence its entries are distinct and satisfy
`0 ≤ J[0] < J[1] < … < J[m−1]`), every entry is below `N·D`, and as a multiset
it is exactly the first `m` entries of the permutation. -/
theorem sub_sample_rkhs_basis_sorted_distinct (N D : ℕ) (permutation : List ℕ)
    (num_rkhs_basis : ℕ)
    (hperm : permutation.Perm (List.range (N * D)))
    (_h1 : 1 ≤ num_rkhs_basis) (h2 : num_rkhs_basis ≤ N * D) :
    (sub_sample_rkhs_basis permutation num_rkhs_basis).length = num_rkhs_basis
  ∧ List.Sorted (· < ·) (sub_sample_rkhs_basis permutation num_rkhs_basis)
  ∧ (sub_sample_rkhs_basis permutation num_rkhs_basis).Perm
      (permutation.take num_rkhs_basis)
  ∧ ∀ x ∈ sub_sample_rkhs_basis permutation num_rkhs_basis, x < N * D := by
  have hlen : permutation.length = N * D := by
    simpa using hperm.length_eq
  have hnodup : permutation.Nodup := hperm.nodup_iff.mpr (List.nodup_range _)
  have htake : (permutation.take num_rkhs_basis).Nodup :=
    hnodup.sublist (List.take_sublist _ _)
  have hsortperm : (sub_sample_rkhs_basis permutation num_rkhs_basis).Perm
      (permutation.take num_rkhs_basis) :=
    List.perm_insertionSort _ _
  refine ⟨?_, ?_, hsortperm, ?_⟩
  · rw [sub_sample_rkhs_basis, List.length_insertionSort, List.length_take,
      hlen, Nat.min_eq_left h2]
  · exact (List.sorted_insertionSort _ _).lt_of_le (hsortperm.symm.nodup htake)
  · intro x hx
    have hx2 : x ∈ permutation.take num_rkhs_basis := hsortperm.mem_iff.mp hx
    have hx3 : x ∈ permutation := List.mem_of_mem_take hx2
    have hx4 : x ∈ List.range (N * D) := hperm.mem_iff.mp hx3
    exact List.mem_range.mp hx4

/-- C9 witness: `sub_sample_rkhs_basis_sorted_distinct` on the concrete
permutation `[2, 0, 1]` of `{0, 1, 2}` (`N = 3`, `D = 1`) with `m = 2`: the
stored basis has length 2 and is strictly increasing. -/
theorem sub_sample_rkhs_basis_sorted_distinct_witness :
    (sub_sample_rkhs_basis [2, 0, 1] 2).length = 2
  ∧ List.Sorted (· < ·) (sub_sample_rkhs_basis [2, 0, 1] 2) :=
  ⟨(sub_sample_rkhs_basis_sorted_distinct 3 1 [2, 0, 1] 2 (by decide) (by decide)
      (by decide)).1,
   (sub_sample_rkhs_basis_sorted_distinct 3 1 [2, 0, 1] 2 (by decide) (by decide)
      (by decide)).2.1⟩

/-- The largest eigenvalue bounds every eigenvalue: Eigen `maxCoeff` behaves as
a maximum on a nonempty vector. -/
theorem le_maxCoeff {m : ℕ} (s : Fin m → ℚ) (i : Fin m) : s i ≤ maxCoeff s := by
  have hm : 0 < m := i.pos
  rw [maxCoeff, dif_pos hm]
  exact Finset.le_sup' s (Finset.mem_univ i)

/-- The maximum eigenvalue is attained: `maxCoeff` returns one of the
eigenvalues when there is at least one. -/
theorem maxCoeff_mem {m : ℕ} (hm : 0 < m) (s : Fin m → ℚ) :
    ∃ i, maxCoeff s = s i := by
  rw [maxCoeff, dif_pos hm]
  obtain ⟨i, _, hi⟩ := Finset.exists_mem_eq_sup' ⟨⟨0, hm⟩, Finset.mem_univ _⟩ s
  exact ⟨i, hi⟩

/-- C2: `pinv_self_adjoint` applies the numpy-style tolerance rule to the
eigendecomposition `(V, s)` produced by the (external) symmetric eigensolver:
the tolerance is `τ = ε_machine · m' · max_i s_i` with
`ε_machine = 2⁻⁵²` and `maxCoeff` the attained maximum of the eigenvalues,
eigenvalues strictly above `τ` are inverted while eigenvalues `≤ τ`
(equality included) are truncated to zero, the returned matrix is
`V · diag(s⁺) · Vᵀ` entrywise, and on a diagonal input (eigenvectors the
identity) the result is exactly `diag(s⁺)`. -/
theorem pinv_self_adjoint_tolerance_rule {m : ℕ} (hm : 0 < m) (s : Fin m → ℚ) :
    (∀ i, s i ≤ maxCoeff s)
  ∧ (∃ i, maxCoeff s = s i)
  ∧ (∀ i, MACHINE_EPSILON * m * maxCoeff s < s i → pinv_inv_s s i = 1 / s i)
  ∧ (∀ i, s i ≤ MACHINE_EPSILON * m * maxCoeff s → pinv_inv_s s i = 0)
  ∧ MACHINE_EPSILON = 1 / 2 ^ 52
  ∧ (∀ (V : Matrix (Fin m) (Fin m) ℚ) i j,
      pinv_self_adjoint V s i j = ∑ k, V i k * pinv_inv_s s k * V j k)
  ∧ pinv_self_adjoint (1 : Matrix (Fin m) (Fin m) ℚ) s
      = Matrix.diagonal (pinv_inv_s s) := by
  refine ⟨fun i => le_maxCoeff s i, maxCoeff_mem hm s, ?_, ?_, rfl, ?_, ?_⟩
  · intro i hi
    rw [pinv_inv_s, if_pos]
    exact hi
  · intro i hi
    rw [pinv_inv_s, if_neg]
    exact not_lt.mpr hi
  · intro V i j
    rw [pinv_self_adjoint, Matrix.mul_apply]
    simp [Matrix.mul_diagonal, Matrix.transpose_apply]
  · rw [pinv_self_adjoint, Matrix.transpose_one, Matrix.one_mul, Matrix.mul_one]

/-- C2 witness: `pinv_self_adjoint_tolerance_rule` at `m' = 2` with
eigenvalues `s = (3, 0)`: the tolerance is `2⁻⁵²·2·3`, so the eigenvalue `3`
is inverted to `1/3` and the eigenvalue `0` is truncated to `0`, and the
pseudo-inverse of the diagonal matrix with identity eigenvectors is
`diag(1/3, 0)`. -/
theorem pinv_self_adjoint_tolerance_rule_witness :
    pinv_inv_s (fun i : Fin 2 => if i = 0 then (3 : ℚ) else 0) 0 = 1 / 3
  ∧ pinv_inv_s (fun i : Fin 2 => if i = 0 then (3 : ℚ) else 0) 1 = 0
  ∧ pinv_self_adjoint (1 : Matrix (Fin 2) (Fin 2) ℚ)
      (fun i : Fin 2 => if i = 0 then (3 : ℚ) else 0)
      = Matrix.diagonal (pinv_inv_s (fun i : Fin 2 => if i = 0 then (3 : ℚ) else 0)) :=
  ⟨(pinv_self_adjoint_tolerance_rule (by decide)
        (fun i : Fin 2 => if i = 0 then (3 : ℚ) else 0)).2.2.1 0 (by
      have hmax : maxCoeff (fun i : Fin 2 => if i = 0 then (3 : ℚ) else 0) = 3 := by
        decide
      rw [hmax]
      norm_num [MACHINE_EPSILON]),
   (pinv_self_adjoint_tolerance_rule (by decide)
        (fun i : Fin 2 => if i = 0 then (3 : ℚ) else 0)).2.2.2.1 1 (by
      have hmax : maxCoeff (fun i : Fin 2 => if i = 0 then (3 : ℚ) else 0) = 3 := by
        decide
      rw [hmax]
      norm_num [MACHINE_EPSILON]),
   (pinv_self_adjoint_tolerance_rule (by decide)
        (fun i : Fin 2 => if i = 0 then (3 : ℚ) else 0)).2.2.2.2.2.2⟩

/-- Negative or zero eigenvalues never pass the strict tolerance test when
`m'·ε_machine < 1`: if `max s ≥ 0` the tolerance is nonnegative, and if all
eigenvalues are negative the tolerance `ε·m'·max s` still lies strictly above
`max s`. -/
theorem nonpos_eigenvalue_below_tol {m : ℕ} (hsmall : (m : ℚ) * MACHINE_EPSILON < 1)
    (s : Fin m → ℚ) (i : Fin m) (hi : s i ≤ 0) :
    s i ≤ MACHINE_EPSILON * m * maxCoeff s := by
  have heps : (0 : ℚ) < MACHINE_EPSILON := by norm_num [MACHINE_EPSILON]
  have hcast : (0 : ℚ) ≤ (m : ℚ) := Nat.cast_nonneg m
  have hle : s i ≤ maxCoeff s := le_maxCoeff s i
  rcases le_or_lt 0 (maxCoeff s) with hmax | hmax
  · have : 0 ≤ MACHINE_EPSILON * m * maxCoeff s :=
      mul_nonneg (mul_nonneg heps.le hcast) hmax
    linarith
  · nlinarith [mul_pos (neg_pos.mpr hmax)
      (by linarith : (0 : ℚ) < 1 - MACHINE_EPSILON * m)]

/-- C10: whenever `m'·ε_machine < 1`, `pinv_self_adjoint` maps every
non-positive eigenvalue to zero (a negative eigenvalue never passes the strict
test `s_i > ε_machine·m'·max_i s_i`, unlike a singular-value convention which
would invert its magnitude), all inverted eigenvalues are therefore positive,
and the returned pseudo-inverse `V·diag(s⁺)·Vᵀ` is positive semi-definite. -/
theorem pinv_self_adjoint_truncates_nonpositive {m : ℕ} (_hm : 0 < m)
    (hsmall : (m : ℚ) * MACHINE_EPSILON < 1) (s : Fin m → ℚ)
    (V : Matrix (Fin m) (Fin m) ℚ) :
    (∀ i, s i ≤ 0 → pinv_inv_s s i = 0)
  ∧ (∀ i, 0 ≤ pinv_inv_s s i)
  ∧ (∀ x : Fin m → ℚ, 0 ≤ x ⬝ᵥ (pinv_self_adjoint V s) *ᵥ x) := by
  have hzero : ∀ i, s i ≤ 0 → pinv_inv_s s i = 0 := by
    intro i hi
    rw [pinv_inv_s, if_neg]
    exact not_lt.mpr (nonpos_eigenvalue_below_tol hsmall s i hi)
  have hnonneg : ∀ i, 0 ≤ pinv_inv_s s i := by
    intro i
    rcases le_or_lt (s i) 0 with hi | hi
    · rw [hzero i hi]
    · rw [pinv_inv_s]
      split_ifs
      · positivity
      · exact le_refl 0
  refine ⟨hzero, hnonneg, ?_⟩
  intro x
  rw [pinv_self_adjoint, ← Matrix.mulVec_mulVec, ← Matrix.mulVec_mulVec,
    Matrix.dotProduct_mulVec, ← Matrix.mulVec_transpose]
  have hsum : (Vᵀ *ᵥ x) ⬝ᵥ (Matrix.diagonal (pinv_inv_s s) *ᵥ (Vᵀ *ᵥ x))
      = ∑ k, pinv_inv_s s k * ((Vᵀ *ᵥ x) k * (Vᵀ *ᵥ x) k) := by
    rw [Matrix.dotProduct]
    exact Finset.sum_congr rfl fun k _ => by
      rw [Matrix.mulVec_diagonal]; ring
  rw [hsum]
  exact Finset.sum_nonneg fun k _ =>
    mul_nonneg (hnonneg k) (mul_self_nonneg _)

/-- C10 witness: `pinv_self_adjoint_truncates_nonpositive` at `m' = 1` with the
single negative eigenvalue `s = (−1)` and identity eigenvectors: the
eigenvalue is truncated to zero rather than inverted, and the quadratic form
of the resulting pseudo-inverse at the vector `(1)` is nonnegative. -/
theorem pinv_self_adjoint_truncates_nonpositive_witness :
    pinv_inv_s (fun _ : Fin 1 => (-1 : ℚ)) 0 = 0
  ∧ 0 ≤ (fun _ : Fin 1 => (1 : ℚ)) ⬝ᵥ
      (pinv_self_adjoint (1 : Matrix (Fin 1) (Fin 1) ℚ) (fun _ : Fin 1 => (-1 : ℚ)))
        *ᵥ (fun _ : Fin 1 => (1 : ℚ)) :=
  ⟨(pinv_self_adjoint_truncates_nonpositive (by decide)
      (by norm_num [MACHINE_EPSILON]) (fun _ : Fin 1 => (-1 : ℚ))
      (1 : Matrix (Fin 1) (Fin 1) ℚ)).1 0 (by norm_num),
   (pinv_self_adjoint_truncates_nonpositive (by decide)
      (by norm_num [MACHINE_EPSILON]) (fun _ : Fin 1 => (-1 : ℚ))
      (1 : Matrix (Fin 1) (Fin 1) ℚ)).2.2 (fun _ : Fin 1 => (1 : ℚ))⟩

end KernelExpFamilyImpl
